import Mathlib

/-!
Verification of the command-attribute registry, multi-key decomposition and
execution entry point of the tidis command-routing core
(src/attribute/attribute.rs, src/cmd/mix.rs, src/tikv/mix.rs).

Modelling conventions:
- Redis byte-strings (Vec<u8> elements of the argument vector) are modelled as
  Lean strings; every registry name and every input of interest is ASCII, so
  the String::from_utf8 conversions performed by the source always succeed on
  them and are the identity here.
- Errors are modelled by their message string, exactly as produced by the
  format! calls of the source (the source has a single CommandError type whose
  only payload is the message).
- Rust panics (out-of-bounds indexing, Option::unwrap on None, step_by with a
  zero step) are modelled by an outer Option: none is a panic, some r is a
  normal return of the Result value r.
- The usize casts of the source (i32 as usize) are modelled by reduction
  modulo 2^64 of the mathematical integer, which is exactly the two's
  complement reinterpretation Rust performs.
-/

/-- The CmdAttr struct of src/attribute/attribute.rs (lines 5-13): per-command
key-shape metadata. Integer fields are i32 in the source and are modelled as
unbounded integers; theorems that need the cast to usize to be trivial carry
explicit i32-range hypotheses. -/
structure CmdAttr where
  name : String
  arity : Int
  flags : String
  first_key : Int
  last_key : Int
  step : Int
deriving DecidableEq, Repr

/-- Rust i32-to-usize cast: reinterpretation of the two's complement bits,
i.e. reduction modulo 2^64 (nonnegative representative). -/
def usizeCast (i : Int) : Nat :=
  (i % (2 ^ 64 : Int)).toNat

/-- The error message built at src/attribute/attribute.rs lines 136-138 and
179-181 (the CommandNotFound case of the spec's error taxonomy). -/
def cmdNotFoundMsg (name : String) : String :=
  "cmd not found, " ++ name

/-- The error message built at src/attribute/attribute.rs lines 160-163 (the
MalformedArguments case of the spec's error taxonomy): it reports the first
dangling argument. -/
def malformedMsg (arg : String) : String :=
  "cmd argument error, invalid sub argument " ++ arg

/-- The CMD_ATTRS registry of src/attribute/attribute.rs (lines 31-51): the
source registers exactly append and cad (the rest of the table is elided in
the source behind a continuation comment). Modelled as a lookup function, the
reading of a HashMap that is only ever read. -/
def CMD_ATTRS : String → Option CmdAttr := fun name =>
  if name = "append" then
    some ⟨"append", 3, "write", 1, 1, 1⟩
  else if name = "cad" then
    some ⟨"cad", 3, "write", 1, 1, 1⟩
  else
    none

/-- The REWRITE_CMD table of src/attribute/attribute.rs (lines 53-58):
protocol-level name to storage-level name. -/
def REWRITE_CMD : String → Option String := fun name =>
  if name = "mset" then some "set"
  else if name = "mget" then some "get"
  else none

/-- The in-place rewrite of element 0 performed at
src/attribute/attribute.rs lines 140-144: if the rewrite table has an entry
for the first element, replace the first element by the target. -/
def rewriteArgv (rw : String → Option String) (multi : List String) :
    List String :=
  match multi.head? with
  | none => multi
  | some c0 =>
    match rw c0 with
    | some val => val :: multi.tail
    | none => multi

/-- The stride loop of split_multikeys_command
(src/attribute/attribute.rs lines 156-171), acting on the suffix of the
(rewritten) argument vector that starts at first_key. The loop step of the
source is s + 1 here: the loop is only reached with a positive step, since a
zero step makes step_by panic, which the caller models separately. Each
iteration checks that at least a full stride remains (otherwise it fails
reporting the first dangling argument), then emits
prefix ++ current stride and advances by the step. The emptiness break of
source line 157 is unreachable in the source (the range never yields an index
past the end) and corresponds to the nil case here. -/
def splitLoop (pre : List String) (s : Nat) :
    List String → Except String (List (List String))
  | [] => Except.ok []
  | a :: rest =>
    if rest.length < s then
      Except.error (malformedMsg a)
    else
      match splitLoop pre s (rest.drop s) with
      | Except.error e => Except.error e
      | Except.ok subs => Except.ok ((pre ++ a :: rest.take s) :: subs)
termination_by l => l.length
decreasing_by
  simp only [List.length_drop, List.length_cons]
  omega

/-- Shallow embedding of split_multikeys_command
(src/attribute/attribute.rs lines 132-174), with the registry and rewrite
table as parameters (the source closes over the static CMD_ATTRS and
REWRITE_CMD; the closed form is split_multikeys_command below).
Behaviour, in source order:
- multi[0] is read with no emptiness guard: the empty vector panics (none);
- unknown command name: CommandNotFound error;
- element 0 is rewritten through the rewrite table;
- length at most first_key + 1, or at most step elements from first_key on:
  passthrough, the (rewritten) vector unchanged and no sub-commands;
- otherwise the stride walk; a zero step would make step_by panic (none). -/
def splitMultikeysCommandWith (attrs : String → Option CmdAttr)
    (rw : String → Option String) (multi : List String) :
    Option (Except String (List String × List (List String))) :=
  match multi.head? with
  | none => none
  | some c0 =>
    match attrs c0 with
    | none => some (Except.error (cmdNotFoundMsg c0))
    | some cmd_attr =>
      let multi2 := rewriteArgv rw multi
      if multi2.length ≤ usizeCast (cmd_attr.first_key + 1) then
        some (Except.ok (multi2, []))
      else
        let fk := usizeCast cmd_attr.first_key
        if (multi2.drop fk).length ≤ usizeCast cmd_attr.step then
          some (Except.ok (multi2, []))
        else
          match usizeCast cmd_attr.step with
          | 0 => none
          | s + 1 =>
            match splitLoop (multi2.take fk) s (multi2.drop fk) with
            | Except.error e => some (Except.error e)
            | Except.ok subs => some (Except.ok ([], subs))

/-- The source split_multikeys_command itself: the stride walk closed over the
static registry and rewrite table of src/attribute/attribute.rs. -/
def split_multikeys_command (multi : List String) :
    Option (Except String (List String × List (List String))) :=
  splitMultikeysCommandWith CMD_ATTRS REWRITE_CMD multi

/-- Number of iterations of the counting loop of
check_multikey_command_arguments (src/attribute/attribute.rs lines 183-186),
as a function of the length of the index range first_key..multi.len(); the
loop step of the source is s + 1 here (a zero step makes step_by panic, which
the caller models separately). Each iteration consumes one stride. -/
def keyCount (s : Nat) : Nat → Nat
  | 0 => 0
  | n + 1 => 1 + keyCount s (n + 1 - (s + 1))
termination_by n => n
decreasing_by
  omega

/-- Shallow embedding of check_multikey_command_arguments
(src/attribute/attribute.rs lines 176-195), with the registry as a parameter.
It looks the command up (CommandNotFound if absent), counts the stride
positions from first_key to the end of the vector, and errors when that count
exceeds one. A zero step would make step_by panic (none). -/
def checkMultikeyCommandArgumentsWith (attrs : String → Option CmdAttr)
    (cmd : String) (multi : List String) : Option (Except String Unit) :=
  match attrs cmd with
  | none => some (Except.error (cmdNotFoundMsg cmd))
  | some cmd_attr =>
    match usizeCast cmd_attr.step with
    | 0 => none
    | s + 1 =>
      let key_num := keyCount s (multi.length - usizeCast cmd_attr.first_key)
      if key_num > 1 then
        some (Except.error "invalid args, must have only one key")
      else
        some (Except.ok ())

/-- The source check_multikey_command_arguments itself, closed over the static
registry of src/attribute/attribute.rs. -/
def check_multikey_command_arguments (cmd : String) (multi : List String) :
    Option (Except String Unit) :=
  checkMultikeyCommandArgumentsWith CMD_ATTRS cmd multi

/-- Shallow embedding of is_write_command
(src/attribute/attribute.rs lines 197-206), with the registry as a parameter:
the result starts as true and is set to false exactly when the command is
registered and its flags equal "readonly". -/
def isWriteCommandWith (attrs : String → Option CmdAttr) (cmd : String) :
    Bool :=
  match attrs cmd with
  | some cmd_attr => if cmd_attr.flags = "readonly" then false else true
  | none => true

/-- The source is_write_command itself, closed over the static registry of
src/attribute/attribute.rs. -/
def is_write_command (cmd : String) : Bool :=
  isWriteCommandWith CMD_ATTRS cmd

/-- The protocol frame type, as used by src/cmd/mix.rs and src/tikv/mix.rs:
the code of the core constructs only Frame::array() (the empty array frame)
and Frame::Raw(bytes); every other variant is opaque to it. -/
inductive Frame where
  | array : Frame
  | raw : List Nat → Frame
deriving DecidableEq, Repr

/-- A transaction handle (tikv_client Transaction behind Arc and Mutex in the
source). The core never inspects it, so an opaque identifier suffices. -/
def Txn : Type := Nat

/-- The external collaborators of the execution context
(spec section 6; get_client, Frame::encode_array and the store client call
client.redis_command of src/tikv/mix.rs lines 44-53), modelled as
uninterpreted functions. Note the store-client call signature: table id,
command bytes, key bytes, encoded request - it has no transaction slot. -/
structure StoreEnv where
  getClient : Except String Unit
  encodeArray : Frame → Except String (List Nat)
  clientRedisCommand : Nat → List Nat → List Nat → List Nat →
    Except String (List Nat)

/-- UTF-8 bytes of a string (router_key.as_bytes() in src/cmd/mix.rs). -/
def strBytes (s : String) : List Nat :=
  s.toUTF8.toList.map (fun b => b.toNat)

/-- The Mix command value object of src/cmd/mix.rs (lines 16-22): raw command
name bytes, decoded key list, validity flag, originating frame. -/
structure Mix where
  cmd : List Nat
  keys : List String
  valid : Bool
  frame : Frame

/-- Mix::new_invalid (src/cmd/mix.rs lines 112-121): the marked-invalid
sentinel with no command and no keys. -/
def Mix.new_invalid : Mix :=
  ⟨[], [], false, Frame.array⟩

/-- MixCommandCtx::do_async_redis_command (src/tikv/mix.rs lines 37-56):
obtain the store client (propagating its error), encode the frame into the
store wire format (an encoding failure is wrapped into an owned error whose
message is the original message), issue the store-client call, and wrap the
returned bytes as a raw frame. No retries, no interpretation of the payload. -/
def MixCommandCtx.do_async_redis_command (env : StoreEnv) (table_id : Nat)
    (cmd : List Nat) (meta_key : List Nat) (frame : Frame) :
    Except String Frame :=
  match env.getClient with
  | Except.error e => Except.error e
  | Except.ok _ =>
    match env.encodeArray frame with
    | Except.error e => Except.error e
    | Except.ok request =>
      match env.clientRedisCommand table_id cmd meta_key request with
      | Except.error e => Except.error e
      | Except.ok val => Except.ok (Frame.raw val)

set_option linter.unusedVariables false in
/-- Mix::redis_command (src/cmd/mix.rs lines 82-97): the execution entry
point. The validity guard of the source is commented out; the code hardcodes
table id 153, takes keys().get(0).unwrap() as the router key - a panic (none)
when the key list is empty - and delegates to do_async_redis_command. The txn
parameter is accepted but never read by the source body. -/
def Mix.redis_command (env : StoreEnv) (self : Mix) (txn : Option Txn) :
    Option (Except String Frame) :=
  let table_id : Nat := 153
  match self.keys.head? with
  | none => none
  | some router_key =>
    some (MixCommandCtx.do_async_redis_command env table_id self.cmd
      (strBytes router_key) self.frame)

/-- Modelled from the spec: the registry entry for mset
(first_key = 1, last_key = -1, step = 2), referenced by the spec scenarios.
The source CMD_ATTRS table is truncated behind a continuation comment and
does not list mset, although the REWRITE_CMD table does; arity and flags are
not pinned by the spec and are taken as the natural values for a write batch
command (no theorem depends on them). -/
def msetAttr : CmdAttr :=
  ⟨"mset", -3, "write", 1, -1, 2⟩

/-- The registry of the spec scenarios: the source registry extended with the
mset entry above. -/
def msetRegistry : String → Option CmdAttr := fun name =>
  if name = "mset" then some msetAttr else CMD_ATTRS name

/-- The registry of the spec scenario for is_write_command: the source
registry extended with a readonly get entry. -/
def readDemoAttrs : String → Option CmdAttr := fun name =>
  if name = "get" then some ⟨"get", 2, "readonly", 1, 1, 1⟩
  else CMD_ATTRS name

/-- A store environment whose client call echoes the table id, the command
bytes and the encoded request it receives into its reply, making the complete
argument list of the store-client call observable in the result. -/
def echoEnv : StoreEnv :=
  ⟨Except.ok (), fun _ => Except.ok [9],
    fun tid cmd _ req => Except.ok (tid :: cmd ++ req)⟩

/-- A concrete command value with one key, used to exercise the execution
entry point. -/
def mixDemo : Mix :=
  ⟨[97], ["k"], true, Frame.array⟩

/-! Helper lemmas about the embedded definitions. -/

theorem usizeCast_natCast (n : Nat) (h : n < 2 ^ 64) :
    usizeCast (n : Int) = n := by
  unfold usizeCast
  rw [Int.emod_eq_of_lt (by positivity) (by exact_mod_cast h)]
  simp

theorem rewriteArgv_length (rw : String → Option String) (multi : List String) :
    (rewriteArgv rw multi).length = multi.length := by
  unfold rewriteArgv
  cases multi with
  | nil => rfl
  | cons c t => cases h : rw c <;> simp [h]

theorem rewriteArgv_drop (rw : String → Option String) (multi : List String)
    (p : Nat) (hp : 1 ≤ p) :
    (rewriteArgv rw multi).drop p = multi.drop p := by
  unfold rewriteArgv
  cases multi with
  | nil => rfl
  | cons c t =>
    cases h : rw c with
    | none => simp [h]
    | some v =>
      obtain ⟨q, rfl⟩ : ∃ q, p = q + 1 := ⟨p - 1, by omega⟩
      simp [h]

theorem getD_drop_aux {α : Type} (d : α) :
    ∀ (n : Nat) (l : List α) (m : Nat),
      (l.drop n).getD m d = l.getD (n + m) d := by
  intro n
  induction n with
  | zero => intro l m; simp
  | succ n ih =>
    intro l m
    cases l with
    | nil => simp
    | cons a t =>
      have h1 : n + 1 + m = (n + m) + 1 := by omega
      simp [h1, ih t m]

theorem rewriteArgv_getD (rw : String → Option String) (multi : List String)
    (i : Nat) (d : String) (hi : 1 ≤ i) :
    (rewriteArgv rw multi).getD i d = multi.getD i d := by
  unfold rewriteArgv
  cases multi with
  | nil => rfl
  | cons c t =>
    cases h : rw c with
    | none => simp [h]
    | some v =>
      obtain ⟨q, rfl⟩ : ∃ q, i = q + 1 := ⟨i - 1, by omega⟩
      simp [h]

theorem splitLoop_nil (pre : List String) (s : Nat) :
    splitLoop pre s [] = Except.ok [] := by
  simp [splitLoop]

theorem splitLoop_cons (pre : List String) (s : Nat) (a : String)
    (rest : List String) :
    splitLoop pre s (a :: rest) =
      if rest.length < s then
        Except.error (malformedMsg a)
      else
        match splitLoop pre s (rest.drop s) with
        | Except.error e => Except.error e
        | Except.ok subs => Except.ok ((pre ++ a :: rest.take s) :: subs) := by
  rw [splitLoop]

theorem splitLoop_ok_of_length_mul (pre : List String) (s : Nat) :
    ∀ (k : Nat) (rest : List String), rest.length = k * (s + 1) →
      ∃ subs, splitLoop pre s rest = Except.ok subs ∧
        subs.length = k ∧
        (∀ sub ∈ subs, ∃ chunk, chunk.length = s + 1 ∧ sub = pre ++ chunk) ∧
        (subs.map fun sub => sub.drop pre.length).flatten = rest := by
  intro k
  induction k with
  | zero =>
    intro rest h
    have hnil : rest = [] := List.eq_nil_of_length_eq_zero (by simpa using h)
    subst hnil
    exact ⟨[], splitLoop_nil pre s, rfl, by simp, by simp⟩
  | succ k ih =>
    intro rest h
    have hexp : (k + 1) * (s + 1) = k * (s + 1) + (s + 1) := by ring
    cases rest with
    | nil =>
      exfalso
      simp only [List.length_nil] at h
      omega
    | cons a t =>
      simp only [List.length_cons] at h
      have hts : ¬ (t.length < s) := by omega
      have hdlen : (t.drop s).length = k * (s + 1) := by
        simp only [List.length_drop]
        omega
      obtain ⟨subs, hok, hslen, hall, hflat⟩ := ih (t.drop s) hdlen
      refine ⟨(pre ++ a :: t.take s) :: subs, ?_, ?_, ?_, ?_⟩
      · rw [splitLoop_cons, if_neg hts, hok]
      · simp [hslen]
      · intro sub hsub
        rcases List.mem_cons.mp hsub with rfl | hsub2
        · exact ⟨a :: t.take s, by simp [List.length_take]; omega, rfl⟩
        · exact hall sub hsub2
      · simp only [List.map_cons, List.flatten_cons, List.drop_left, hflat]
        simp [List.take_append_drop]

theorem splitLoop_error_of_remainder (pre : List String) (s : Nat) :
    ∀ (q : Nat) (rest : List String) (r : Nat), 0 < r → r < s + 1 →
      rest.length = q * (s + 1) + r →
      splitLoop pre s rest =
        Except.error (malformedMsg (rest.getD (q * (s + 1)) "")) := by
  intro q
  induction q with
  | zero =>
    intro rest r hr hrs h
    cases rest with
    | nil =>
      exfalso
      simp only [List.length_nil] at h
      omega
    | cons a t =>
      simp only [List.length_cons] at h
      have hts : t.length < s := by omega
      rw [splitLoop_cons, if_pos hts]
      simp
  | succ q ih =>
    intro rest r hr hrs h
    have hexp : (q + 1) * (s + 1) = q * (s + 1) + (s + 1) := by ring
    cases rest with
    | nil =>
      exfalso
      simp only [List.length_nil] at h
      omega
    | cons a t =>
      simp only [List.length_cons] at h
      have hts : ¬ (t.length < s) := by omega
      have hdlen : (t.drop s).length = q * (s + 1) + r := by
        simp only [List.length_drop]
        omega
      have herr := ih (t.drop s) r hr hrs hdlen
      rw [splitLoop_cons, if_neg hts, herr]
      have hidx : (t.drop s).getD (q * (s + 1)) "" =
          ((a :: t) : List String).getD ((q + 1) * (s + 1)) "" := by
        rw [getD_drop_aux]
        have h2 : (q + 1) * (s + 1) = (s + q * (s + 1)) + 1 := by ring
        rw [h2]
        simp
      rw [hidx]

theorem splitLoop_ok_ne_nil (pre : List String) (s : Nat) (rest : List String)
    (subs : List (List String)) (hok : splitLoop pre s rest = Except.ok subs)
    (hne : rest ≠ []) : subs ≠ [] := by
  cases rest with
  | nil => exact absurd rfl hne
  | cons a t =>
    rw [splitLoop_cons] at hok
    by_cases hg : t.length < s
    · rw [if_pos hg] at hok
      exact absurd hok (by simp)
    · rw [if_neg hg] at hok
      cases hE : splitLoop pre s (t.drop s) with
      | error e =>
        rw [hE] at hok
        exact absurd hok (by simp)
      | ok subs2 =>
        rw [hE] at hok
        have : (pre ++ a :: t.take s) :: subs2 = subs := by
          simpa using hok
        rw [← this]
        simp

theorem keyCount_eq_zero_iff (s n : Nat) : keyCount s n = 0 ↔ n = 0 := by
  cases n with
  | zero => simp [keyCount]
  | succ m =>
    rw [keyCount]
    omega

theorem keyCount_le_one_iff (s n : Nat) : keyCount s n ≤ 1 ↔ n ≤ s + 1 := by
  cases n with
  | zero => simp [keyCount]
  | succ m =>
    rw [keyCount]
    have h0 : keyCount s (m + 1 - (s + 1)) = 0 ↔ m + 1 - (s + 1) = 0 :=
      keyCount_eq_zero_iff s (m + 1 - (s + 1))
    omega

theorem usizeCast_natCast_add_one (p : Nat) (h : p + 1 < 2 ^ 64) :
    usizeCast ((p : Int) + 1) = p + 1 := by
  have h1 : ((p : Int) + 1) = ((p + 1 : Nat) : Int) := by push_cast; ring
  rw [h1, usizeCast_natCast _ h]

theorem split_passthrough_of_le (attrs : String → Option CmdAttr)
    (rw : String → Option String) (multi : List String) (c : String)
    (attr : CmdAttr) (hc : multi.head? = some c) (ha : attrs c = some attr)
    (h : multi.length ≤ usizeCast (attr.first_key + 1) ∨
        ((rewriteArgv rw multi).drop (usizeCast attr.first_key)).length ≤
          usizeCast attr.step) :
    splitMultikeysCommandWith attrs rw multi =
      some (Except.ok (rewriteArgv rw multi, [])) := by
  cases multi with
  | nil => simp at hc
  | cons c0 t =>
    have hc0 : c0 = c := by simpa using hc
    subst c0
    unfold splitMultikeysCommandWith
    simp only [List.head?_cons, ha]
    rcases h with h | h
    · rw [if_pos (by rw [rewriteArgv_length]; exact h)]
    · by_cases h1 : (rewriteArgv rw (c :: t)).length ≤
          usizeCast (attr.first_key + 1)
      · rw [if_pos h1]
      · rw [if_neg h1, if_pos h]

/-! Theorems settling the claims. -/

/-- C8: decomposing an argument vector whose first element is not a registered
command name fails with the CommandNotFound error (the exact message the
source formats) and produces neither sub-commands nor a passthrough. -/
theorem split_unknown_command_not_found (attrs : String → Option CmdAttr)
    (rw : String → Option String) (multi : List String) (c : String)
    (hc : multi.head? = some c) (ha : attrs c = none) :
    splitMultikeysCommandWith attrs rw multi =
      some (Except.error (cmdNotFoundMsg c)) := by
  cases multi with
  | nil => simp at hc
  | cons c0 t =>
    have hc0 : c0 = c := by simpa using hc
    subst c0
    unfold splitMultikeysCommandWith
    simp [ha]

/-- Witness for C8 at a concrete input: the unknown verb is rejected with the
CommandNotFound message. -/
theorem split_unknown_command_not_found_witness :
    split_multikeys_command ["unknownverb"] =
      some (Except.error (cmdNotFoundMsg "unknownverb")) :=
  split_unknown_command_not_found CMD_ATTRS REWRITE_CMD ["unknownverb"]
    "unknownverb" rfl rfl

/-- C10: split_multikeys_command reads element 0 with no emptiness guard. On
every non-empty vector whose first element is a registered command with
positive step it returns a Result value, while the empty vector lies outside
its domain: the call panics (none), returning neither a passthrough nor a
CommandNotFound error. -/
theorem split_empty_panics_total_otherwise :
    (∀ (attrs : String → Option CmdAttr) (rw : String → Option String),
        splitMultikeysCommandWith attrs rw [] = none) ∧
    (∀ (attrs : String → Option CmdAttr) (rw : String → Option String)
        (multi : List String) (c : String) (attr : CmdAttr),
        multi.head? = some c → attrs c = some attr →
        1 ≤ usizeCast attr.step →
        ∃ res, splitMultikeysCommandWith attrs rw multi = some res) := by
  constructor
  · intro attrs rw
    rfl
  · intro attrs rw multi c attr hc ha hs
    cases multi with
    | nil => simp at hc
    | cons c0 t =>
      have hc0 : c0 = c := by simpa using hc
      subst c0
      unfold splitMultikeysCommandWith
      simp only [List.head?_cons, ha]
      by_cases h1 : (rewriteArgv rw (c :: t)).length ≤
          usizeCast (attr.first_key + 1)
      · rw [if_pos h1]
        exact ⟨_, rfl⟩
      · rw [if_neg h1]
        by_cases h2 : ((rewriteArgv rw (c :: t)).drop
            (usizeCast attr.first_key)).length ≤ usizeCast attr.step
        · rw [if_pos h2]
          exact ⟨_, rfl⟩
        · rw [if_neg h2]
          obtain ⟨s, hs1⟩ : ∃ s, usizeCast attr.step = s + 1 :=
            ⟨usizeCast attr.step - 1, by omega⟩
          rw [hs1]
          show ∃ res,
            (match splitLoop ((rewriteArgv rw (c :: t)).take
                (usizeCast attr.first_key)) s
                ((rewriteArgv rw (c :: t)).drop (usizeCast attr.first_key)) with
              | Except.error e => some (Except.error e)
              | Except.ok subs => some (Except.ok ([], subs))) = some res
          cases hE : splitLoop ((rewriteArgv rw (c :: t)).take
              (usizeCast attr.first_key)) s
              ((rewriteArgv rw (c :: t)).drop (usizeCast attr.first_key)) with
          | error e => exact ⟨_, rfl⟩
          | ok subs => exact ⟨_, rfl⟩

/-- Witness for C10: the empty vector panics under the source registry, and a
concrete registered cad call returns a Result value. -/
theorem split_empty_panics_total_otherwise_witness :
    splitMultikeysCommandWith CMD_ATTRS REWRITE_CMD [] = none ∧
    ∃ res, splitMultikeysCommandWith CMD_ATTRS REWRITE_CMD ["cad", "x"] =
      some res :=
  ⟨split_empty_panics_total_otherwise.1 CMD_ATTRS REWRITE_CMD,
    split_empty_panics_total_otherwise.2 CMD_ATTRS REWRITE_CMD ["cad", "x"]
      "cad" ⟨"cad", 3, "write", 1, 1, 1⟩ rfl rfl (by decide)⟩

/-- C7: is_write_command returns false exactly when the command is registered
with flags equal to readonly; every unregistered name and every other flag
give true. -/
theorem is_write_command_iff_readonly (attrs : String → Option CmdAttr)
    (cmd : String) :
    isWriteCommandWith attrs cmd = false ↔
      ∃ attr, attrs cmd = some attr ∧ attr.flags = "readonly" := by
  unfold isWriteCommandWith
  cases h : attrs cmd with
  | none => simp [h]
  | some attr =>
    by_cases hf : attr.flags = "readonly" <;> simp [h, hf]

/-- Witness for C7, the spec scenario: with get registered readonly,
is_write_command is false on get (via the theorem) and true on an
unregistered verb. -/
theorem is_write_command_iff_readonly_witness :
    isWriteCommandWith readDemoAttrs "get" = false ∧
    isWriteCommandWith readDemoAttrs "unknownverb" = true :=
  ⟨(is_write_command_iff_readonly readDemoAttrs "get").mpr
      ⟨⟨"get", 2, "readonly", 1, 1, 1⟩, rfl, rfl⟩,
    rfl⟩

/-- C4 (code bug): the execution entry point evaluated at the marked-invalid
sentinel. The claim (and the spec) say redis_command always returns a Result
value and never panics; the source does keys().get(0).unwrap() with its
validity guard commented out, so the sentinel, whose key list is empty,
panics: the model returns none (no Result value) for every environment and
every transaction argument. -/
theorem redis_command_invalid_sentinel_panics :
    ∀ (env : StoreEnv) (txn : Option Txn),
      Mix.redis_command env Mix.new_invalid txn = none := by
  intro env txn
  rfl

/-- C6 (amended): the transaction handle supplied to the execution entry
point is ignored: redis_command produces the same store-client call and the
same result for every handle argument, in particular the same as supplying
no handle; the context neither opens nor commits transactions. -/
theorem redis_command_ignores_txn :
    ∀ (env : StoreEnv) (m : Mix) (t1 t2 : Option Txn),
      Mix.redis_command env m t1 = Mix.redis_command env m t2 := by
  intro env m t1 t2
  rfl

/-- C6 (counterexample): with a store environment whose client call echoes
every argument it receives into its reply, executing a concrete one-key
command with transaction handle 5 yields exactly the reply of executing it
with no handle, and the echoed argument list [153, 97, 9] (table id, command
byte, encoded request byte) of the store-client call contains no transaction
handle: contrary to the claim, the handle supplied to the entry point is not
passed through to the underlying store-client call. -/
theorem redis_command_txn_not_forwarded_counterexample :
    Mix.redis_command echoEnv mixDemo (some (5 : Nat)) =
        some (Except.ok (Frame.raw [153, 97, 9])) ∧
    Mix.redis_command echoEnv mixDemo none =
        some (Except.ok (Frame.raw [153, 97, 9])) :=
  ⟨rfl, rfl⟩

/-- C2 (counterexample): append is registered with
first_key = last_key = 1 and step 1, yet decomposing a three-element append
vector yields two sub-commands and an empty passthrough: the decomposer never
consults last_key and splits whenever more than step arguments follow the
first_key position. This refutes the claim that every argument vector of a
single-key command is returned unchanged as passthrough. -/
theorem split_single_key_splits_counterexample :
    split_multikeys_command ["append", "x", "y"] =
      some (Except.ok ([], [["append", "x"], ["append", "y"]])) := by
  simp [split_multikeys_command, splitMultikeysCommandWith, CMD_ATTRS,
    REWRITE_CMD, rewriteArgv, usizeCast, splitLoop, malformedMsg]

set_option linter.unusedVariables false in
/-- C2 (amended): for a command registered with the single-key shape
first_key = last_key = 1 and no rewrite entry (which holds for every
registered single-key command), decompose returns the vector unchanged as
passthrough, never sub-commands, whenever at most step arguments follow
position first_key; the counterexample shows that longer vectors are split
instead. -/
theorem split_single_key_passthrough_amended (attrs : String → Option CmdAttr)
    (rw : String → Option String) (multi : List String) (c : String)
    (attr : CmdAttr) (hc : multi.head? = some c) (ha : attrs c = some attr)
    (hfk : attr.first_key = 1) (hlk : attr.last_key = 1) (hrw : rw c = none)
    (hlen : (multi.drop 1).length ≤ usizeCast attr.step) :
    splitMultikeysCommandWith attrs rw multi =
      some (Except.ok (multi, [])) := by
  have hre : rewriteArgv rw multi = multi := by
    unfold rewriteArgv
    rw [hc]
    simp [hrw]
  have h1 : usizeCast attr.first_key = 1 := by
    rw [hfk]
    decide
  have h2 := split_passthrough_of_le attrs rw multi c attr hc ha
    (Or.inr (by rw [hre, h1]; exact hlen))
  rw [h2, hre]

/-- Witness for the amended C2: a two-element append vector passes through
unchanged with no sub-commands. -/
theorem split_single_key_passthrough_amended_witness :
    split_multikeys_command ["append", "x"] =
      some (Except.ok (["append", "x"], [])) :=
  split_single_key_passthrough_amended CMD_ATTRS REWRITE_CMD ["append", "x"]
    "append" ⟨"append", 3, "write", 1, 1, 1⟩ rfl rfl rfl rfl rfl (by decide)

/-- C5: whenever decompose returns successfully on a vector whose first
element names a registered command, exactly one of the two output fields is
non-empty: a passthrough comes with no sub-commands, and a sub-command list
comes with an empty passthrough and is itself non-empty. -/
theorem split_exactly_one_output_nonempty (attrs : String → Option CmdAttr)
    (rw : String → Option String) (multi : List String) (c : String)
    (attr : CmdAttr) (pt : List String) (subs : List (List String))
    (hc : multi.head? = some c) (ha : attrs c = some attr)
    (hok : splitMultikeysCommandWith attrs rw multi =
      some (Except.ok (pt, subs))) :
    (pt ≠ [] ∧ subs = []) ∨ (pt = [] ∧ subs ≠ []) := by
  have hne : rewriteArgv rw multi ≠ [] := by
    intro hnil
    have hl := rewriteArgv_length rw multi
    rw [hnil] at hl
    cases multi with
    | nil => simp at hc
    | cons c0 t => simp at hl
  cases multi with
  | nil => simp at hc
  | cons c0 t =>
    have hc0 : c0 = c := by simpa using hc
    subst c0
    unfold splitMultikeysCommandWith at hok
    simp only [List.head?_cons, ha] at hok
    by_cases h1 : (rewriteArgv rw (c :: t)).length ≤
        usizeCast (attr.first_key + 1)
    · rw [if_pos h1] at hok
      have hinj : rewriteArgv rw (c :: t) = pt ∧ ([] : List (List String)) = subs := by
        simpa using hok
      left
      refine ⟨?_, hinj.2.symm⟩
      rw [← hinj.1]
      exact hne
    · rw [if_neg h1] at hok
      by_cases h2 : ((rewriteArgv rw (c :: t)).drop
          (usizeCast attr.first_key)).length ≤ usizeCast attr.step
      · rw [if_pos h2] at hok
        have hinj : rewriteArgv rw (c :: t) = pt ∧ ([] : List (List String)) = subs := by
          simpa using hok
        left
        refine ⟨?_, hinj.2.symm⟩
        rw [← hinj.1]
        exact hne
      · rw [if_neg h2] at hok
        cases hstep : usizeCast attr.step with
        | zero =>
          rw [hstep] at hok
          simp at hok
        | succ s =>
          rw [hstep] at hok
          have hok2 : (match splitLoop ((rewriteArgv rw (c :: t)).take
              (usizeCast attr.first_key)) s
              ((rewriteArgv rw (c :: t)).drop (usizeCast attr.first_key)) with
            | Except.error e => some (Except.error e)
            | Except.ok subs2 => some (Except.ok (([] : List String), subs2))) =
              some (Except.ok (pt, subs)) := hok
          cases hE : splitLoop ((rewriteArgv rw (c :: t)).take
              (usizeCast attr.first_key)) s
              ((rewriteArgv rw (c :: t)).drop (usizeCast attr.first_key)) with
          | error e =>
            rw [hE] at hok2
            simp at hok2
          | ok subs2 =>
            rw [hE] at hok2
            have hinj : ([] : List String) = pt ∧ subs2 = subs := by
              simpa using hok2
            right
            refine ⟨hinj.1.symm, ?_⟩
            rw [← hinj.2]
            refine splitLoop_ok_ne_nil _ s _ subs2 hE ?_
            intro hnil2
            rw [hnil2] at h2
            simp at h2

/-- Witness for C5 at a concrete input: a cad call that passes through has a
non-empty passthrough and no sub-commands. -/
theorem split_exactly_one_output_nonempty_witness :
    (["cad", "k"] ≠ ([] : List String) ∧ ([] : List (List String)) = []) ∨
    (["cad", "k"] = ([] : List String) ∧ ([] : List (List String)) ≠ []) :=
  split_exactly_one_output_nonempty CMD_ATTRS REWRITE_CMD ["cad", "k"] "cad"
    ⟨"cad", 3, "write", 1, 1, 1⟩ ["cad", "k"] [] rfl rfl rfl

/-- C9 (counterexample): the per-request key-count check accepts a bare
append vector that contains no key at all - zero key groups, not exactly
one - because the source only rejects counts strictly greater than one. This
refutes the claim that the check succeeds only when the vector maps to
exactly one key group. -/
theorem check_zero_key_groups_ok_counterexample :
    check_multikey_command_arguments "append" ["append"] =
        some (Except.ok ()) ∧
    keyCount 0 (List.length ["append"] - 1) = 0 := by
  constructor
  · simp [check_multikey_command_arguments, checkMultikeyCommandArgumentsWith,
      CMD_ATTRS, usizeCast, keyCount]
  · simp [keyCount]

/-- C9 (amended): for a registered command the key-count check succeeds
exactly when the argument vector maps to at most one key group under the
command shape - equivalently, when at most step arguments sit at or after
position first_key; with two or more key groups it returns the
only-one-key error (the check is a pure function, so nothing is modified
either way). -/
theorem check_at_most_one_key_group_amended (attrs : String → Option CmdAttr)
    (cmd : String) (multi : List String) (attr : CmdAttr) (p s : Nat)
    (ha : attrs cmd = some attr)
    (hfk : attr.first_key = (p : Int)) (hp : p < 2 ^ 31)
    (hst : attr.step = ((s + 1 : Nat) : Int)) (hs : s + 1 < 2 ^ 31) :
    checkMultikeyCommandArgumentsWith attrs cmd multi =
        some (Except.ok ()) ↔
      multi.length ≤ p + (s + 1) := by
  have hcp : usizeCast attr.first_key = p := by
    rw [hfk]
    exact usizeCast_natCast p (by omega)
  have hcs : usizeCast attr.step = s + 1 := by
    rw [hst]
    exact usizeCast_natCast (s + 1) (by omega)
  unfold checkMultikeyCommandArgumentsWith
  rw [ha]
  simp only [hcs, hcp]
  by_cases hgt : keyCount s (multi.length - p) > 1
  · rw [if_pos hgt]
    have hiff := keyCount_le_one_iff s (multi.length - p)
    constructor
    · intro h
      exact absurd h (by simp)
    · intro h
      exfalso
      have : keyCount s (multi.length - p) ≤ 1 := hiff.mpr (by omega)
      omega
  · rw [if_neg hgt]
    have hiff := keyCount_le_one_iff s (multi.length - p)
    constructor
    · intro _
      have := hiff.mp (by omega)
      omega
    · intro _
      rfl

/-- Witness for the amended C9: a cad vector with one key group passes the
check. -/
theorem check_at_most_one_key_group_amended_witness :
    check_multikey_command_arguments "cad" ["cad", "k"] =
      some (Except.ok ()) :=
  (check_at_most_one_key_group_amended CMD_ATTRS "cad" ["cad", "k"]
    ⟨"cad", 3, "write", 1, 1, 1⟩ 1 0 rfl rfl (by omega) rfl (by omega)).mpr
    (by simp)

/-- C3 (counterexample): with mset registered as a variable-multi-key command
of step 2, the vector with one trailing argument - trailing count 1, positive
and not a multiple of 2 - is returned as a passthrough (with element 0
rewritten), not rejected with MalformedArguments: the decomposer treats any
trailing count of at most step as one key group. -/
theorem split_nonmultiple_short_passthrough_counterexample :
    ¬ (2 ∣ 1) ∧
    splitMultikeysCommandWith msetRegistry REWRITE_CMD ["mset", "a"] =
      some (Except.ok (["set", "a"], [])) :=
  ⟨by decide, rfl⟩

/-- C3 (amended): for a variable-multi-key command with prefix length
p = first_key ≥ 1 and step s, decomposing a vector whose trailing argument
count (after position first_key) exceeds s and is not a multiple of s -
written q * s full groups, q ≥ 1, plus a remainder r with 0 < r < s - fails
with the MalformedArguments error reporting the first dangling argument, the
element at position first_key + q * s; trailing counts of at most s, even
when not multiples of s, are returned as passthrough instead, as the
counterexample shows. -/
theorem split_malformed_amended (attrs : String → Option CmdAttr)
    (rw : String → Option String) (multi : List String) (c : String)
    (attr : CmdAttr) (p s q r : Nat)
    (hc : multi.head? = some c) (ha : attrs c = some attr)
    (hfk : attr.first_key = (p : Int)) (hp1 : 1 ≤ p) (hp2 : p < 2 ^ 31)
    (hst : attr.step = (s : Int)) (hs1 : 1 ≤ s) (hs2 : s < 2 ^ 31)
    (hq : 1 ≤ q) (hr0 : 0 < r) (hrs : r < s)
    (hlen : multi.length = p + q * s + r) :
    splitMultikeysCommandWith attrs rw multi =
      some (Except.error (malformedMsg (multi.getD (p + q * s) ""))) := by
  have hcp : usizeCast attr.first_key = p := by
    rw [hfk]; exact usizeCast_natCast p (by omega)
  have hcp1 : usizeCast (attr.first_key + 1) = p + 1 := by
    rw [hfk]; exact usizeCast_natCast_add_one p (by omega)
  have hcs : usizeCast attr.step = s := by
    rw [hst]; exact usizeCast_natCast s (by omega)
  obtain ⟨s0, rfl⟩ : ∃ s0, s = s0 + 1 := ⟨s - 1, by omega⟩
  cases multi with
  | nil => simp at hc
  | cons c0 t =>
    have hc0 : c0 = c := by simpa using hc
    subst c0
    have hm2l : (rewriteArgv rw (c :: t)).length = p + q * (s0 + 1) + r := by
      rw [rewriteArgv_length]; exact hlen
    have hq1 : s0 + 1 ≤ q * (s0 + 1) := Nat.le_mul_of_pos_left _ hq
    have hdl : ((rewriteArgv rw (c :: t)).drop p).length =
        q * (s0 + 1) + r := by
      rw [List.length_drop, hm2l]; omega
    unfold splitMultikeysCommandWith
    simp only [List.head?_cons, ha]
    rw [hcp1, hcp, hcs]
    rw [if_neg (show ¬ ((rewriteArgv rw (c :: t)).length ≤ p + 1) by omega)]
    rw [if_neg (show ¬ (((rewriteArgv rw (c :: t)).drop p).length ≤ s0 + 1)
      by omega)]
    show (match splitLoop ((rewriteArgv rw (c :: t)).take p) s0
        ((rewriteArgv rw (c :: t)).drop p) with
      | Except.error e => some (Except.error e)
      | Except.ok subs => some (Except.ok ([], subs))) = _
    rw [splitLoop_error_of_remainder ((rewriteArgv rw (c :: t)).take p) s0 q
      ((rewriteArgv rw (c :: t)).drop p) r hr0 (by omega) hdl]
    show some (Except.error (malformedMsg
        (((rewriteArgv rw (c :: t)).drop p).getD (q * (s0 + 1)) ""))) = _
    rw [getD_drop_aux, rewriteArgv_getD _ _ _ _ (by omega : 1 ≤ p + q * (s0 + 1))]

/-- Witness for the amended C3, the spec example: ["mset","a","1","b"] has
trailing count 3 with step 2 and fails reporting the dangling argument b. -/
theorem split_malformed_amended_witness :
    splitMultikeysCommandWith msetRegistry REWRITE_CMD
        ["mset", "a", "1", "b"] =
      some (Except.error (malformedMsg "b")) := by
  have h := split_malformed_amended msetRegistry REWRITE_CMD
    ["mset", "a", "1", "b"] "mset" msetAttr 1 2 1 1 rfl rfl rfl
    (by omega) (by omega) rfl (by omega) (by omega) (by omega) (by omega)
    (by omega) (by simp)
  simpa using h

/-- C1: for a variable-multi-key command registered with prefix length
p = first_key ≥ 1 and step s ≥ 1, decomposing a vector of total length
p + k * s with k ≥ 2 yields exactly k sub-commands, each of length p + s,
each sharing the first p elements of the input after the rewrite-table
substitution of element 0, and the concatenation of the stride slices of the
sub-commands, in order, equals the trailing arguments of the input; in
particular, with mset registered as first_key 1, last_key -1, step 2 and
rewrite target set, the spec example decomposes into the two set
sub-commands. -/
theorem split_variable_multikey_correct :
    (∀ (attrs : String → Option CmdAttr) (rw : String → Option String)
        (multi : List String) (c : String) (attr : CmdAttr) (p s k : Nat),
        multi.head? = some c → attrs c = some attr →
        attr.first_key = (p : Int) → 1 ≤ p → p < 2 ^ 31 →
        attr.step = (s : Int) → 1 ≤ s → s < 2 ^ 31 → 2 ≤ k →
        multi.length = p + k * s →
        ∃ subs,
          splitMultikeysCommandWith attrs rw multi =
            some (Except.ok ([], subs)) ∧
          subs.length = k ∧
          (∀ sub ∈ subs, sub.length = p + s ∧
            sub.take p = (rewriteArgv rw multi).take p) ∧
          (subs.map fun sub => sub.drop p).flatten = multi.drop p) ∧
    splitMultikeysCommandWith msetRegistry REWRITE_CMD
        ["mset", "a", "1", "b", "2"] =
      some (Except.ok ([], [["set", "a", "1"], ["set", "b", "2"]])) := by
  constructor
  · intro attrs rw multi c attr p s k hc ha hfk hp1 hp2 hst hs1 hs2 hk hlen
    have hcp : usizeCast attr.first_key = p := by
      rw [hfk]; exact usizeCast_natCast p (by omega)
    have hcp1 : usizeCast (attr.first_key + 1) = p + 1 := by
      rw [hfk]; exact usizeCast_natCast_add_one p (by omega)
    have hcs : usizeCast attr.step = s := by
      rw [hst]; exact usizeCast_natCast s (by omega)
    obtain ⟨s0, rfl⟩ : ∃ s0, s = s0 + 1 := ⟨s - 1, by omega⟩
    cases multi with
    | nil => simp at hc
    | cons c0 t =>
      have hc0 : c0 = c := by simpa using hc
      subst c0
      have hm2l : (rewriteArgv rw (c :: t)).length = p + k * (s0 + 1) := by
        rw [rewriteArgv_length]; exact hlen
      have hks : 2 * 1 ≤ k * (s0 + 1) := Nat.mul_le_mul hk (by omega)
      have hks2 : 2 * (s0 + 1) ≤ k * (s0 + 1) :=
        Nat.mul_le_mul hk (Nat.le_refl _)
      have hdl : ((rewriteArgv rw (c :: t)).drop p).length = k * (s0 + 1) := by
        rw [List.length_drop, hm2l]; omega
      have hplen : ((rewriteArgv rw (c :: t)).take p).length = p := by
        rw [List.length_take, hm2l]; omega
      unfold splitMultikeysCommandWith
      simp only [List.head?_cons, ha]
      rw [hcp1, hcp, hcs]
      rw [if_neg (show ¬ ((rewriteArgv rw (c :: t)).length ≤ p + 1) by omega)]
      rw [if_neg (show ¬ (((rewriteArgv rw (c :: t)).drop p).length ≤ s0 + 1)
        by omega)]
      show ∃ subs2,
        (match splitLoop ((rewriteArgv rw (c :: t)).take p) s0
            ((rewriteArgv rw (c :: t)).drop p) with
          | Except.error e => some (Except.error e)
          | Except.ok subs => some (Except.ok ([], subs))) =
            some (Except.ok ([], subs2)) ∧
        subs2.length = k ∧
        (∀ sub ∈ subs2, sub.length = p + (s0 + 1) ∧
          sub.take p = (rewriteArgv rw (c :: t)).take p) ∧
        (subs2.map fun sub => sub.drop p).flatten = (c :: t).drop p
      obtain ⟨subs, hok, hslen, hall, hflat⟩ :=
        splitLoop_ok_of_length_mul ((rewriteArgv rw (c :: t)).take p) s0 k
          ((rewriteArgv rw (c :: t)).drop p) hdl
      rw [hplen] at hflat
      refine ⟨subs, by rw [hok], hslen, ?_, ?_⟩
      · intro sub hsub
        obtain ⟨chunk, hclen, rfl⟩ := hall sub hsub
        constructor
        · rw [List.length_append, hplen, hclen]
        · rw [List.take_left' hplen]
      · rw [hflat]
        exact rewriteArgv_drop rw (c :: t) p hp1
  · simp [splitMultikeysCommandWith, msetRegistry, msetAttr, CMD_ATTRS,
      REWRITE_CMD, rewriteArgv, usizeCast, splitLoop, malformedMsg]

/-- Witness for C1: the general statement applied at the spec example, with
mset registered as first_key 1, step 2 and rewrite target set. -/
theorem split_variable_multikey_correct_witness :
    ∃ subs,
      splitMultikeysCommandWith msetRegistry REWRITE_CMD
          ["mset", "a", "1", "b", "2"] = some (Except.ok ([], subs)) ∧
      subs.length = 2 ∧
      (∀ sub ∈ subs, sub.length = 1 + 2 ∧
        sub.take 1 = (rewriteArgv REWRITE_CMD
          ["mset", "a", "1", "b", "2"]).take 1) ∧
      (subs.map fun sub => sub.drop 1).flatten =
        (["mset", "a", "1", "b", "2"] : List String).drop 1 :=
  split_variable_multikey_correct.1 msetRegistry REWRITE_CMD
    ["mset", "a", "1", "b", "2"] "mset" msetAttr 1 2 2 rfl rfl rfl
    (by omega) (by omega) rfl (by omega) (by omega) (by omega) (by simp)
